import Mathlib

/-!
Verification development for the CBM Analytics dashboard.

The repository ships the React frontend (`FileUpload.js`, `Dashboard.js`,
chart and table components, their tests) together with documentation of the
FastAPI backend.  The backend modules themselves (`parser.py`,
`analyzer.py`) are not part of the source tree available here, so the core
ingestion/aggregation pipeline (Column Resolver, Row Normalizer, CBM
Resolver, Aggregator) is modelled from the specification, while the upload
boundary is embedded directly from `frontend/src/components/FileUpload.js`.

Dates are represented as day numbers (`Int`), CBM figures as exact
rationals (`Rat`), quantities as `Int`.
-/

namespace Cbm

/-- Side of a spreadsheet row: sales order (inbound) or sales invoice
(outbound). -/
inductive Source where
  | SO : Source
  | SI : Source
deriving DecidableEq, Repr

/-- Modelled from the spec: the backend CBM Resolver (`resolveCbm`,
`analyzer.py`) is not in the source tree.  Spec §4.3: if `total_cbm` is
present (non-null) it is used as-is, even when zero; otherwise, when both
`unit_cbm` and `quantity` are present, the resolved CBM is
`unit_cbm × quantity`; otherwise it is zero. -/
def resolveCbm (total_cbm : Option Rat) (unit_cbm : Option Rat)
    (quantity : Option Int) : Rat :=
  match total_cbm with
  | some t => t
  | none =>
    match unit_cbm, quantity with
    | some u, some q => u * (q : Rat)
    | _, _ => 0

/-- One row reduced to one source side (spec §3, `NormalizedRecord`):
source, calendar date (day number), nullable total CBM, nullable unit CBM,
nullable quantity. -/
structure NormalizedRecord where
  source : Source
  date : Int
  total_cbm : Option Rat
  unit_cbm : Option Rat
  quantity : Option Int
deriving DecidableEq, Repr

/-- Claim C1: `resolveCbm` returns `total_cbm` whenever it is non-null
(including zero, the fallback not being triggered); when `total_cbm` is
null and both `unit_cbm` and `quantity` are non-null it returns
`unit_cbm * quantity`; in every other case it returns zero; in particular
`resolveCbm 0 5 3 = 0`, `resolveCbm none 5 3 = 15` and
`resolveCbm none none 3 = 0`. -/
theorem resolveCbm_total_authoritative_with_fallback :
    (∀ (t : Rat) (u : Option Rat) (q : Option Int),
        resolveCbm (some t) u q = t) ∧
    (∀ (u : Rat) (q : Int),
        resolveCbm none (some u) (some q) = u * (q : Rat)) ∧
    (∀ (u : Option Rat) (q : Option Int),
        u = none ∨ q = none → resolveCbm none u q = 0) ∧
    resolveCbm (some 0) (some 5) (some 3) = 0 ∧
    resolveCbm none (some 5) (some 3) = 15 ∧
    resolveCbm none none (some 3) = 0 := by
  refine ⟨fun t u q => rfl, fun u q => rfl, ?_, rfl, ?_, rfl⟩
  · rintro u q (rfl | rfl)
    · rfl
    · cases u <;> rfl
  · show (5 : Rat) * ((3 : Int) : Rat) = 15
    norm_num

/-- Witness for `resolveCbm_total_authoritative_with_fallback`: the
hypothesis of the third conjunct discharged at `u = some 5`, `q = none`. -/
theorem resolveCbm_total_authoritative_with_fallback_witness :
    resolveCbm none (some 5) none = 0 :=
  resolveCbm_total_authoritative_with_fallback.2.2.1 (some 5) none (Or.inr rfl)

/-- Effective CBM of a record, after the CBM Resolver. -/
def recordCbm (r : NormalizedRecord) : Rat :=
  resolveCbm r.total_cbm r.unit_cbm r.quantity

/-- Quantity of a record; a null quantity contributes zero (spec §4.4). -/
def recordQty (r : NormalizedRecord) : Int :=
  r.quantity.getD 0

/-- Modelled from the spec: the Aggregator's range filter (`analyzer.py` is
not in the source tree).  Spec §4.4: keep records whose calendar date falls
within `[dateFrom, dateTo]` inclusive. -/
def qualifies (dateFrom dateTo : Int) (r : NormalizedRecord) : Bool :=
  decide (dateFrom ≤ r.date) && decide (r.date ≤ dateTo)

/-- Modelled from the spec: bucket key (spec §4.4) — the record's own date,
or, when `groupBy` requests a coarser period, the start date of the
containing period (the period-start map is the abstract parameter). -/
def bucketKey (groupBy : Option (Int → Int)) (d : Int) : Int :=
  match groupBy with
  | none => d
  | some periodStart => periodStart d

/-- One aggregation bucket (spec §3, `DailyBucket`). -/
structure DailyBucket where
  date : Int
  inbound_cbm : Rat
  outbound_cbm : Rat
  net_flow_cbm : Rat
  inbound_qty : Int
  outbound_qty : Int
  net_flow_qty : Int
deriving Repr

def isSO (r : NormalizedRecord) : Bool := r.source == Source.SO

def isSI (r : NormalizedRecord) : Bool := r.source == Source.SI

def sumCbm (rs : List NormalizedRecord) : Rat := (rs.map recordCbm).sum

def sumQty (rs : List NormalizedRecord) : Int := (rs.map recordQty).sum

/-- Signed CBM contribution of a record to the net flow of its bucket:
inbound counts positively, outbound negatively. -/
def signedCbm (r : NormalizedRecord) : Rat :=
  match r.source with
  | Source.SO => recordCbm r
  | Source.SI => -recordCbm r

/-- Signed quantity contribution of a record to the net flow of its
bucket. -/
def signedQty (r : NormalizedRecord) : Int :=
  match r.source with
  | Source.SO => recordQty r
  | Source.SI => -recordQty r

/-- Modelled from the spec: one bucket of the Aggregator (spec §4.4) —
within a bucket, CBM (post CBM Resolver) and quantity are summed
separately for SO-sourced and SI-sourced records; the net flow is the
signed sum of all contributions. -/
def mkBucket (groupBy : Option (Int → Int)) (qs : List NormalizedRecord)
    (k : Int) : DailyBucket :=
  let here := qs.filter (fun r => bucketKey groupBy r.date == k)
  { date := k
    inbound_cbm := sumCbm (here.filter isSO)
    outbound_cbm := sumCbm (here.filter isSI)
    net_flow_cbm := (here.map signedCbm).sum
    inbound_qty := sumQty (here.filter isSO)
    outbound_qty := sumQty (here.filter isSI)
    net_flow_qty := (here.map signedQty).sum }

/-- Totals across buckets (spec §3 / §6). -/
structure Totals where
  total_inbound_cbm : Rat
  total_outbound_cbm_si : Rat
  total_net_flow_cbm : Rat
  total_inbound_qty : Int
  total_outbound_qty_si : Int
  total_net_flow_qty : Int
deriving Repr

/-- KPI block (spec §3 / §6); peaks are `(date, value)` pairs, absent when
there is no bucket. -/
structure Kpis where
  peak_inbound_cbm_day : Option (Int × Rat)
  peak_outbound_cbm_day : Option (Int × Rat)
  peak_inbound_qty_day : Option (Int × Int)
  peak_outbound_qty_day : Option (Int × Int)
  avg_daily_net_flow_cbm : Rat
  avg_daily_net_flow_qty : Rat
deriving Repr

/-- Result of one analyze request (spec §3, `AnalysisResult`). -/
structure AnalysisResult where
  daily : List DailyBucket
  totals : Totals
  kpis : Kpis
deriving Repr

/-- One step of peak-day selection: replace the current peak only on a
strictly larger metric value. -/
def peakStep {α : Type} [LinearOrder α] (f : DailyBucket → α)
    (acc : Option DailyBucket) (b : DailyBucket) : Option DailyBucket :=
  match acc with
  | none => some b
  | some p => if f p < f b then some b else some p

/-- Modelled from the spec: peak-day selection (spec §4.4) — scan the
bucket sequence keeping the bucket with the largest metric value,
replacing only on a strictly larger value, so the earliest bucket wins
ties on a date-ascending sequence. -/
def peakBy {α : Type} [LinearOrder α] (f : DailyBucket → α)
    (bs : List DailyBucket) : Option DailyBucket :=
  bs.foldl (peakStep f) none

/-- Modelled from the spec: totals are the sums across buckets
(spec §3). -/
def mkTotals (bs : List DailyBucket) : Totals :=
  { total_inbound_cbm := (bs.map (·.inbound_cbm)).sum
    total_outbound_cbm_si := (bs.map (·.outbound_cbm)).sum
    total_net_flow_cbm := (bs.map (·.net_flow_cbm)).sum
    total_inbound_qty := (bs.map (·.inbound_qty)).sum
    total_outbound_qty_si := (bs.map (·.outbound_qty)).sum
    total_net_flow_qty := (bs.map (·.net_flow_qty)).sum }

/-- Modelled from the spec: KPI derivation over the full returned bucket
sequence (spec §4.4) — peak days by metric, averages as arithmetic mean
over the number of produced buckets. -/
def mkKpis (bs : List DailyBucket) : Kpis :=
  { peak_inbound_cbm_day :=
      (peakBy (·.inbound_cbm) bs).map (fun b => (b.date, b.inbound_cbm))
    peak_outbound_cbm_day :=
      (peakBy (·.outbound_cbm) bs).map (fun b => (b.date, b.outbound_cbm))
    peak_inbound_qty_day :=
      (peakBy (·.inbound_qty) bs).map (fun b => (b.date, b.inbound_qty))
    peak_outbound_qty_day :=
      (peakBy (·.outbound_qty) bs).map (fun b => (b.date, b.outbound_qty))
    avg_daily_net_flow_cbm :=
      (bs.map (·.net_flow_cbm)).sum / (bs.length : Rat)
    avg_daily_net_flow_qty :=
      ((bs.map (·.net_flow_qty)).sum : Rat) / (bs.length : Rat) }

/-- Records selected by the Aggregator's inclusive date-range filter. -/
def qualifyingRecords (records : List NormalizedRecord)
    (dateFrom dateTo : Int) : List NormalizedRecord :=
  records.filter (qualifies dateFrom dateTo)

/-- The distinct bucket keys of the qualifying records: a key appears
exactly when at least one qualifying record falls in its period. -/
def bucketKeys (records : List NormalizedRecord) (dateFrom dateTo : Int)
    (groupBy : Option (Int → Int)) : List Int :=
  ((qualifyingRecords records dateFrom dateTo).map
    (fun r => bucketKey groupBy r.date)).dedup

/-- The bucket sequence: one bucket per occupied key, sorted ascending by
date. -/
def aggregateDaily (records : List NormalizedRecord) (dateFrom dateTo : Int)
    (groupBy : Option (Int → Int)) : List DailyBucket :=
  (List.insertionSort (· ≤ ·) (bucketKeys records dateFrom dateTo groupBy)).map
    (mkBucket groupBy (qualifyingRecords records dateFrom dateTo))

/-- Modelled from the spec: the Aggregator (`aggregate`, `analyzer.py` is
not in the source tree).  Spec §4.4: filter to the inclusive date range,
bucket by key (only keys with at least one contributing record), sort
buckets ascending by date, then derive totals and KPIs over the returned
sequence. -/
def aggregate (records : List NormalizedRecord) (dateFrom dateTo : Int)
    (groupBy : Option (Int → Int)) : AnalysisResult :=
  { daily := aggregateDaily records dateFrom dateTo groupBy
    totals := mkTotals (aggregateDaily records dateFrom dateTo groupBy)
    kpis := mkKpis (aggregateDaily records dateFrom dateTo groupBy) }

theorem signedCbm_sum_split (l : List NormalizedRecord) :
    (l.map signedCbm).sum = sumCbm (l.filter isSO) - sumCbm (l.filter isSI) := by
  induction l with
  | nil => simp [sumCbm]
  | cons r l ih =>
    cases hs : r.source with
    | SO =>
      have h1 : isSO r = true := by simp [isSO, hs]
      have h2 : isSI r = false := by simp [isSI, hs]
      simp only [List.map_cons, List.sum_cons, List.filter_cons, h1, h2,
        if_true, if_false, Bool.false_eq_true, signedCbm, hs]
      rw [ih]
      simp [sumCbm]
      ring
    | SI =>
      have h1 : isSO r = false := by simp [isSO, hs]
      have h2 : isSI r = true := by simp [isSI, hs]
      simp only [List.map_cons, List.sum_cons, List.filter_cons, h1, h2,
        if_true, if_false, Bool.false_eq_true, signedCbm, hs]
      rw [ih]
      simp [sumCbm]
      ring

theorem signedQty_sum_split (l : List NormalizedRecord) :
    (l.map signedQty).sum = sumQty (l.filter isSO) - sumQty (l.filter isSI) := by
  induction l with
  | nil => simp [sumQty]
  | cons r l ih =>
    cases hs : r.source with
    | SO =>
      have h1 : isSO r = true := by simp [isSO, hs]
      have h2 : isSI r = false := by simp [isSI, hs]
      simp only [List.map_cons, List.sum_cons, List.filter_cons, h1, h2,
        if_true, if_false, Bool.false_eq_true, signedQty, hs]
      rw [ih]
      simp [sumQty]
      ring
    | SI =>
      have h1 : isSO r = false := by simp [isSO, hs]
      have h2 : isSI r = true := by simp [isSI, hs]
      simp only [List.map_cons, List.sum_cons, List.filter_cons, h1, h2,
        if_true, if_false, Bool.false_eq_true, signedQty, hs]
      rw [ih]
      simp [sumQty]
      ring

theorem mkBucket_net_flow (groupBy : Option (Int → Int))
    (qs : List NormalizedRecord) (k : Int) :
    (mkBucket groupBy qs k).net_flow_cbm =
      (mkBucket groupBy qs k).inbound_cbm - (mkBucket groupBy qs k).outbound_cbm ∧
    (mkBucket groupBy qs k).net_flow_qty =
      (mkBucket groupBy qs k).inbound_qty - (mkBucket groupBy qs k).outbound_qty := by
  constructor
  · exact signedCbm_sum_split _
  · exact signedQty_sum_split _

/-- Claim C2: every bucket produced by `aggregate`, for every record
sequence, date range and grouping, satisfies
`net_flow_cbm = inbound_cbm - outbound_cbm` and
`net_flow_qty = inbound_qty - outbound_qty`, exactly. -/
theorem aggregate_net_flow_invariant (records : List NormalizedRecord)
    (dateFrom dateTo : Int) (groupBy : Option (Int → Int))
    (b : DailyBucket) (hb : b ∈ (aggregate records dateFrom dateTo groupBy).daily) :
    b.net_flow_cbm = b.inbound_cbm - b.outbound_cbm ∧
    b.net_flow_qty = b.inbound_qty - b.outbound_qty := by
  simp only [aggregate, aggregateDaily, List.mem_map] at hb
  obtain ⟨k, -, rfl⟩ := hb
  exact mkBucket_net_flow _ _ _

/-- Witness for `aggregate_net_flow_invariant`: the membership hypothesis
discharged for the single bucket produced from one inbound record on day
5 over the range `[0, 10]`. -/
theorem aggregate_net_flow_invariant_witness :
    (mkBucket none ([⟨Source.SO, 5, some 2, none, some 3⟩] :
        List NormalizedRecord) 5).net_flow_cbm =
      (mkBucket none ([⟨Source.SO, 5, some 2, none, some 3⟩] :
        List NormalizedRecord) 5).inbound_cbm -
      (mkBucket none ([⟨Source.SO, 5, some 2, none, some 3⟩] :
        List NormalizedRecord) 5).outbound_cbm ∧
    (mkBucket none ([⟨Source.SO, 5, some 2, none, some 3⟩] :
        List NormalizedRecord) 5).net_flow_qty =
      (mkBucket none ([⟨Source.SO, 5, some 2, none, some 3⟩] :
        List NormalizedRecord) 5).inbound_qty -
      (mkBucket none ([⟨Source.SO, 5, some 2, none, some 3⟩] :
        List NormalizedRecord) 5).outbound_qty :=
  aggregate_net_flow_invariant [⟨Source.SO, 5, some 2, none, some 3⟩] 0 10 none
    (mkBucket none [⟨Source.SO, 5, some 2, none, some 3⟩] 5)
    (List.mem_singleton.mpr rfl)

theorem mkBucket_date (groupBy : Option (Int → Int))
    (qs : List NormalizedRecord) (k : Int) : (mkBucket groupBy qs k).date = k :=
  rfl

theorem bucketKeys_nodup (records : List NormalizedRecord)
    (dateFrom dateTo : Int) (groupBy : Option (Int → Int)) :
    (bucketKeys records dateFrom dateTo groupBy).Nodup :=
  List.nodup_dedup _

theorem aggregateDaily_dates_sorted (records : List NormalizedRecord)
    (dateFrom dateTo : Int) (groupBy : Option (Int → Int)) :
    List.Sorted (fun a b : DailyBucket => a.date < b.date)
      (aggregateDaily records dateFrom dateTo groupBy) := by
  have hnd : (List.insertionSort (· ≤ ·)
      (bucketKeys records dateFrom dateTo groupBy)).Nodup :=
    ((List.perm_insertionSort (· ≤ ·) _).nodup_iff).mpr
      (bucketKeys_nodup records dateFrom dateTo groupBy)
  have hs : List.Sorted (fun a b : Int => a < b)
      (List.insertionSort (· ≤ ·) (bucketKeys records dateFrom dateTo groupBy)) :=
    (List.sorted_insertionSort (· ≤ ·) _).lt_of_le hnd
  unfold aggregateDaily
  rw [List.Sorted, List.pairwise_map]
  simpa [mkBucket_date] using hs

theorem aggregate_mem_daily_iff (records : List NormalizedRecord)
    (dateFrom dateTo : Int) (groupBy : Option (Int → Int)) (k : Int) :
    (∃ b ∈ (aggregate records dateFrom dateTo groupBy).daily, b.date = k) ↔
      ∃ r ∈ records, qualifies dateFrom dateTo r = true ∧
        bucketKey groupBy r.date = k := by
  constructor
  · rintro ⟨b, hb, hbd⟩
    simp only [aggregate, aggregateDaily, List.mem_map] at hb
    obtain ⟨k', hk', rfl⟩ := hb
    rw [mkBucket_date] at hbd
    subst hbd
    have hmem : k' ∈ bucketKeys records dateFrom dateTo groupBy :=
      ((List.perm_insertionSort (· ≤ ·) _).mem_iff).mp hk'
    rw [bucketKeys, List.mem_dedup, List.mem_map] at hmem
    obtain ⟨r, hr, hrk⟩ := hmem
    rw [qualifyingRecords, List.mem_filter] at hr
    exact ⟨r, hr.1, hr.2, hrk⟩
  · rintro ⟨r, hr, hq, hk⟩
    refine ⟨mkBucket groupBy (qualifyingRecords records dateFrom dateTo) k,
      ?_, mkBucket_date _ _ _⟩
    simp only [aggregate, aggregateDaily, List.mem_map]
    refine ⟨k, ?_, rfl⟩
    rw [(List.perm_insertionSort (· ≤ ·) _).mem_iff, bucketKeys,
      List.mem_dedup, List.mem_map]
    exact ⟨r, List.mem_filter.mpr ⟨hr, hq⟩, hk⟩

/-- Claim C5: for every record sequence, date range and grouping, the
bucket sequence returned by `aggregate` is sorted strictly ascending by
date, and a bucket for a day (or period start) `k` is present if and only
if at least one qualifying record falls in that day or period — no
zero-filled bucket for an empty day. -/
theorem aggregate_sorted_and_sparse (records : List NormalizedRecord)
    (dateFrom dateTo : Int) (groupBy : Option (Int → Int)) :
    List.Sorted (fun a b : DailyBucket => a.date < b.date)
      (aggregate records dateFrom dateTo groupBy).daily ∧
    ∀ k : Int,
      (∃ b ∈ (aggregate records dateFrom dateTo groupBy).daily, b.date = k) ↔
        ∃ r ∈ records, qualifies dateFrom dateTo r = true ∧
          bucketKey groupBy r.date = k :=
  ⟨aggregateDaily_dates_sorted records dateFrom dateTo groupBy,
    aggregate_mem_daily_iff records dateFrom dateTo groupBy⟩

/-- Witness for `aggregate_sorted_and_sparse`: at a concrete two-record
input the presence direction yields a bucket for day 7, discharged by
supplying the qualifying record explicitly. -/
theorem aggregate_sorted_and_sparse_witness :
    ∃ b ∈ (aggregate
        [⟨Source.SO, 5, some 2, none, some 3⟩, ⟨Source.SI, 7, some 1, none, none⟩]
        0 10 none).daily, b.date = 7 :=
  ((aggregate_sorted_and_sparse
      [⟨Source.SO, 5, some 2, none, some 3⟩, ⟨Source.SI, 7, some 1, none, none⟩]
      0 10 none).2 7).mpr
    ⟨⟨Source.SI, 7, some 1, none, none⟩, by decide, by decide, by decide⟩

theorem peakBy_go {α : Type} [LinearOrder α] (f : DailyBucket → α) :
    ∀ (l : List DailyBucket) (q : DailyBucket),
      List.Pairwise (fun a b => a.date < b.date) l →
      (∀ b ∈ l, q.date < b.date) →
      ∃ p, l.foldl (peakStep f) (some q) = some p ∧
        (p = q ∨ p ∈ l) ∧ f q ≤ f p ∧ (∀ b ∈ l, f b ≤ f p) ∧
        (f q = f p → p = q) ∧ (∀ b ∈ l, f b = f p → p.date ≤ b.date) := by
  intro l
  induction l with
  | nil =>
    intro q _ _
    exact ⟨q, rfl, Or.inl rfl, le_refl _, by simp, fun _ => rfl, by simp⟩
  | cons b l ih =>
    intro q hp hd
    have hpl : List.Pairwise (fun a b => a.date < b.date) l :=
      (List.pairwise_cons.mp hp).2
    have hbl : ∀ b' ∈ l, b.date < b'.date := (List.pairwise_cons.mp hp).1
    have hqb : q.date < b.date := hd b (List.mem_cons_self b l)
    rw [List.foldl_cons]
    by_cases hlt : f q < f b
    · have hstep : peakStep f (some q) b = some b := by simp [peakStep, hlt]
      rw [hstep]
      obtain ⟨p, hfold, hmem, hle, hall, htie, hties⟩ := ih b hpl hbl
      refine ⟨p, hfold, ?_, le_of_lt (lt_of_lt_of_le hlt hle), ?_, ?_, ?_⟩
      · rcases hmem with rfl | h
        · exact Or.inr (List.mem_cons_self _ _)
        · exact Or.inr (List.mem_cons_of_mem _ h)
      · intro b' hb'
        rcases List.mem_cons.mp hb' with rfl | h
        · exact hle
        · exact hall b' h
      · intro hq
        exact absurd hq (ne_of_lt (lt_of_lt_of_le hlt hle))
      · intro b' hb' hfb
        rcases List.mem_cons.mp hb' with rfl | h
        · exact le_of_eq (by rw [htie hfb])
        · exact hties b' h hfb
    · have hstep : peakStep f (some q) b = some q := by simp [peakStep, hlt]
      rw [hstep]
      have hd' : ∀ b' ∈ l, q.date < b'.date :=
        fun b' hb' => lt_trans hqb (hbl b' hb')
      obtain ⟨p, hfold, hmem, hle, hall, htie, hties⟩ := ih q hpl hd'
      have hfb : f b ≤ f q := not_lt.mp hlt
      refine ⟨p, hfold, ?_, hle, ?_, htie, ?_⟩
      · rcases hmem with rfl | h
        · exact Or.inl rfl
        · exact Or.inr (List.mem_cons_of_mem _ h)
      · intro b' hb'
        rcases List.mem_cons.mp hb' with rfl | h
        · exact le_trans hfb hle
        · exact hall b' h
      · intro b' hb' hfb'
        rcases List.mem_cons.mp hb' with rfl | h
        · have hpq : f p ≤ f q := by rw [← hfb']; exact hfb
          have hqp : f q = f p := le_antisymm hle hpq
          rw [htie hqp]
          exact le_of_lt hqb
        · exact hties b' h hfb'

theorem peakBy_spec {α : Type} [LinearOrder α] (f : DailyBucket → α)
    (bs : List DailyBucket)
    (hs : List.Pairwise (fun a b => a.date < b.date) bs) (hne : bs ≠ []) :
    ∃ p, peakBy f bs = some p ∧ p ∈ bs ∧ (∀ b ∈ bs, f b ≤ f p) ∧
      (∀ b ∈ bs, f b = f p → p.date ≤ b.date) := by
  cases bs with
  | nil => exact absurd rfl hne
  | cons b l =>
    have hpl := (List.pairwise_cons.mp hs).2
    have hbl := (List.pairwise_cons.mp hs).1
    obtain ⟨p, hfold, hmem, hle, hall, htie, hties⟩ := peakBy_go f l b hpl hbl
    refine ⟨p, hfold, ?_, ?_, ?_⟩
    · rcases hmem with rfl | h
      · exact List.mem_cons_self _ _
      · exact List.mem_cons_of_mem _ h
    · intro b' hb'
      rcases List.mem_cons.mp hb' with rfl | h
      · exact hle
      · exact hall b' h
    · intro b' hb' hf
      rcases List.mem_cons.mp hb' with rfl | h
      · exact le_of_eq (by rw [htie hf])
      · exact hties b' h hf

/-- Claim C4: for every non-empty bucket sequence produced by `aggregate`,
each peak-day KPI is a bucket whose value for that metric is maximal, with
the earliest date chosen among ties; each average KPI is the arithmetic
mean over the number of produced buckets (not over the number of days in
the requested span). -/
theorem aggregate_kpis_correct (records : List NormalizedRecord)
    (dateFrom dateTo : Int) (groupBy : Option (Int → Int))
    (hne : (aggregate records dateFrom dateTo groupBy).daily ≠ []) :
    (∃ p ∈ (aggregate records dateFrom dateTo groupBy).daily,
      (aggregate records dateFrom dateTo groupBy).kpis.peak_inbound_cbm_day =
        some (p.date, p.inbound_cbm) ∧
      (∀ b ∈ (aggregate records dateFrom dateTo groupBy).daily,
        b.inbound_cbm ≤ p.inbound_cbm) ∧
      (∀ b ∈ (aggregate records dateFrom dateTo groupBy).daily,
        b.inbound_cbm = p.inbound_cbm → p.date ≤ b.date)) ∧
    (∃ p ∈ (aggregate records dateFrom dateTo groupBy).daily,
      (aggregate records dateFrom dateTo groupBy).kpis.peak_outbound_cbm_day =
        some (p.date, p.outbound_cbm) ∧
      (∀ b ∈ (aggregate records dateFrom dateTo groupBy).daily,
        b.outbound_cbm ≤ p.outbound_cbm) ∧
      (∀ b ∈ (aggregate records dateFrom dateTo groupBy).daily,
        b.outbound_cbm = p.outbound_cbm → p.date ≤ b.date)) ∧
    (∃ p ∈ (aggregate records dateFrom dateTo groupBy).daily,
      (aggregate records dateFrom dateTo groupBy).kpis.peak_inbound_qty_day =
        some (p.date, p.inbound_qty) ∧
      (∀ b ∈ (aggregate records dateFrom dateTo groupBy).daily,
        b.inbound_qty ≤ p.inbound_qty) ∧
      (∀ b ∈ (aggregate records dateFrom dateTo groupBy).daily,
        b.inbound_qty = p.inbound_qty → p.date ≤ b.date)) ∧
    (∃ p ∈ (aggregate records dateFrom dateTo groupBy).daily,
      (aggregate records dateFrom dateTo groupBy).kpis.peak_outbound_qty_day =
        some (p.date, p.outbound_qty) ∧
      (∀ b ∈ (aggregate records dateFrom dateTo groupBy).daily,
        b.outbound_qty ≤ p.outbound_qty) ∧
      (∀ b ∈ (aggregate records dateFrom dateTo groupBy).daily,
        b.outbound_qty = p.outbound_qty → p.date ≤ b.date)) ∧
    (aggregate records dateFrom dateTo groupBy).kpis.avg_daily_net_flow_cbm =
      ((aggregate records dateFrom dateTo groupBy).daily.map
        (·.net_flow_cbm)).sum /
      ((aggregate records dateFrom dateTo groupBy).daily.length : Rat) ∧
    (aggregate records dateFrom dateTo groupBy).kpis.avg_daily_net_flow_qty =
      (((aggregate records dateFrom dateTo groupBy).daily.map
        (·.net_flow_qty)).sum : Rat) /
      ((aggregate records dateFrom dateTo groupBy).daily.length : Rat) := by
  have hs : List.Pairwise (fun a b : DailyBucket => a.date < b.date)
      (aggregateDaily records dateFrom dateTo groupBy) :=
    aggregateDaily_dates_sorted records dateFrom dateTo groupBy
  have hne' : aggregateDaily records dateFrom dateTo groupBy ≠ [] := hne
  obtain ⟨p1, hp1, hm1, ha1, ht1⟩ := peakBy_spec (·.inbound_cbm) _ hs hne'
  obtain ⟨p2, hp2, hm2, ha2, ht2⟩ := peakBy_spec (·.outbound_cbm) _ hs hne'
  obtain ⟨p3, hp3, hm3, ha3, ht3⟩ := peakBy_spec (·.inbound_qty) _ hs hne'
  obtain ⟨p4, hp4, hm4, ha4, ht4⟩ := peakBy_spec (·.outbound_qty) _ hs hne'
  refine ⟨⟨p1, hm1, ?_, ha1, ht1⟩, ⟨p2, hm2, ?_, ha2, ht2⟩,
    ⟨p3, hm3, ?_, ha3, ht3⟩, ⟨p4, hm4, ?_, ha4, ht4⟩, rfl, rfl⟩
  · show (peakBy (·.inbound_cbm) (aggregateDaily records dateFrom dateTo
      groupBy)).map (fun b => (b.date, b.inbound_cbm)) = _
    rw [hp1]; rfl
  · show (peakBy (·.outbound_cbm) (aggregateDaily records dateFrom dateTo
      groupBy)).map (fun b => (b.date, b.outbound_cbm)) = _
    rw [hp2]; rfl
  · show (peakBy (·.inbound_qty) (aggregateDaily records dateFrom dateTo
      groupBy)).map (fun b => (b.date, b.inbound_qty)) = _
    rw [hp3]; rfl
  · show (peakBy (·.outbound_qty) (aggregateDaily records dateFrom dateTo
      groupBy)).map (fun b => (b.date, b.outbound_qty)) = _
    rw [hp4]; rfl

/-- Witness for `aggregate_kpis_correct`: the non-emptiness hypothesis
discharged at a concrete one-record input; the average-CBM component of
the conclusion is exhibited. -/
theorem aggregate_kpis_correct_witness :
    (aggregate [⟨Source.SO, 5, some 2, none, some 3⟩] 0 10 none).kpis.avg_daily_net_flow_cbm =
      ((aggregate [⟨Source.SO, 5, some 2, none, some 3⟩] 0 10 none).daily.map
        (·.net_flow_cbm)).sum /
      ((aggregate [⟨Source.SO, 5, some 2, none, some 3⟩] 0 10 none).daily.length : Rat) :=
  (aggregate_kpis_correct [⟨Source.SO, 5, some 2, none, some 3⟩] 0 10 none
    (List.ne_nil_of_length_pos (by decide))).2.2.2.2.1

/-- Claim C6: `aggregate` never fails on an empty selection — for every
dataset and every range selecting zero qualifying records, including every
range with `dateFrom > dateTo` (filtering keeps exactly the records whose
date lies in `[dateFrom, dateTo]` inclusive), it returns an empty bucket
sequence with all totals zero and all KPIs zero or null. -/
theorem aggregate_empty_selection (records : List NormalizedRecord)
    (dateFrom dateTo : Int) (groupBy : Option (Int → Int))
    (h : dateTo < dateFrom ∨
      ∀ r ∈ records, qualifies dateFrom dateTo r = false) :
    (aggregate records dateFrom dateTo groupBy).daily = [] ∧
    (aggregate records dateFrom dateTo groupBy).totals =
      ⟨0, 0, 0, 0, 0, 0⟩ ∧
    (aggregate records dateFrom dateTo groupBy).kpis =
      ⟨none, none, none, none, 0, 0⟩ := by
  have hq : ∀ r ∈ records, qualifies dateFrom dateTo r = false := by
    rcases h with h | h
    · intro r _
      rw [qualifies]
      by_cases h1 : dateFrom ≤ r.date
      · by_cases h2 : r.date ≤ dateTo
        · exact absurd (le_trans h1 h2) (not_le.mpr h)
        · simp [h2]
      · simp [h1]
    · exact h
  have hqr : qualifyingRecords records dateFrom dateTo = [] := by
    rw [qualifyingRecords, List.filter_eq_nil_iff]
    intro r hr
    simp [hq r hr]
  have hdaily : aggregateDaily records dateFrom dateTo groupBy = [] := by
    rw [aggregateDaily, bucketKeys, hqr]
    rfl
  refine ⟨hdaily, ?_, ?_⟩
  · show mkTotals (aggregateDaily records dateFrom dateTo groupBy) = _
    rw [hdaily]
    rfl
  · show mkKpis (aggregateDaily records dateFrom dateTo groupBy) = _
    rw [hdaily]
    simp [mkKpis, peakBy]

/-- Witness for `aggregate_empty_selection`: the hypothesis discharged via
the inverted range `dateFrom = 5 > 3 = dateTo` on a non-empty dataset. -/
theorem aggregate_empty_selection_witness :
    (aggregate [⟨Source.SO, 4, some 2, none, some 3⟩] 5 3 none).daily = [] ∧
    (aggregate [⟨Source.SO, 4, some 2, none, some 3⟩] 5 3 none).totals =
      ⟨0, 0, 0, 0, 0, 0⟩ ∧
    (aggregate [⟨Source.SO, 4, some 2, none, some 3⟩] 5 3 none).kpis =
      ⟨none, none, none, none, 0, 0⟩ :=
  aggregate_empty_selection [⟨Source.SO, 4, some 2, none, some 3⟩] 5 3 none
    (Or.inl (by decide))

/-- A raw spreadsheet cell value: text, number, or blank. -/
inductive CellValue where
  | str (s : String)
  | num (q : Rat)
  | blank
deriving DecidableEq, Repr

/-- One raw spreadsheet row: a mapping from original header string to raw
cell value (spec §3, `RawRecord`). -/
abbrev RawRecord := List (String × CellValue)

/-- Cell of a raw row under a header; a missing header reads as blank. -/
def getCell (raw : RawRecord) (h : String) : CellValue :=
  match raw.find? (fun p => p.1 == h) with
  | some p => p.2
  | none => CellValue.blank

/-- Day number of a civil calendar date (days since 1970-01-01), the
standard era-based conversion. -/
def daysFromCivil (y m d : Int) : Int :=
  let y' := if m ≤ 2 then y - 1 else y
  let era := (if 0 ≤ y' then y' else y' - 399) / 400
  let yoe := y' - era * 400
  let mp := (m + 9) % 12
  let doy := (153 * mp + 2) / 5 + d - 1
  let doe := yoe * 365 + yoe / 4 - yoe / 100 + doy
  era * 146097 + doe - 719468

def isLeap (y : Int) : Bool :=
  y % 4 == 0 && (y % 100 != 0 || y % 400 == 0)

def daysInMonth (y m : Int) : Int :=
  if m = 2 then (if isLeap y then 29 else 28)
  else if m = 4 ∨ m = 6 ∨ m = 9 ∨ m = 11 then 30
  else 31

def validDate (y m d : Int) : Bool :=
  decide (1 ≤ m) && decide (m ≤ 12) && decide (1 ≤ d) &&
    decide (d ≤ daysInMonth y m)

/-- Split a character list on a separator, keeping empty groups. -/
def splitOnChar (sep : Char) : List Char → List (List Char)
  | [] => [[]]
  | c :: cs =>
    let r := splitOnChar sep cs
    if c = sep then [] :: r
    else
      match r with
      | [] => [[c]]
      | g :: gs => (c :: g) :: gs

/-- Value of a non-empty all-digit character list. -/
def digitsToNat : List Char → Option Nat
  | [] => none
  | cs =>
    cs.foldl (fun acc c =>
      match acc with
      | none => none
      | some n => if c.isDigit then some (n * 10 + (c.toNat - 48)) else none)
      (some 0)

/-- Modelled from the spec: ISO text-date parsing (spec §4.2;
`parser.py` is not in the source tree) — `YYYY-MM-DD` with a validity
check, yielding the day number. -/
def parseIsoDate (cs : List Char) : Option Int :=
  match splitOnChar '-' cs with
  | [ys, ms, ds] =>
    match digitsToNat ys, digitsToNat ms, digitsToNat ds with
    | some y, some m, some d =>
      if validDate (y : Int) (m : Int) (d : Int) then
        some (daysFromCivil (y : Int) (m : Int) (d : Int))
      else none
    | _, _, _ => none
  | _ => none

/-- Modelled from the spec: locale text-date parsing (spec §4.2) —
day/month/year versus month/day/year disambiguated by validity; a value
for which both readings are valid and distinct is rejected rather than
guessed (the deterministic rule of spec §9). -/
def parseLocaleDate (cs : List Char) : Option Int :=
  match splitOnChar '/' cs with
  | [as, bs, ys] =>
    match digitsToNat as, digitsToNat bs, digitsToNat ys with
    | some a, some b, some y =>
      let dmy := validDate (y : Int) (b : Int) (a : Int)
      let mdy := validDate (y : Int) (a : Int) (b : Int)
      if dmy && mdy then
        if a = b then some (daysFromCivil (y : Int) (a : Int) (b : Int))
        else none
      else if dmy then some (daysFromCivil (y : Int) (b : Int) (a : Int))
      else if mdy then some (daysFromCivil (y : Int) (a : Int) (b : Int))
      else none
    | _, _, _ => none
  | _ => none

/-- Excel's day zero, 1899-12-30, the conventional epoch absorbing the
1900 leap-year-bug offset of the originating spreadsheet format. -/
def excelEpoch : Int := daysFromCivil 1899 12 30

/-- Modelled from the spec: serial-date parsing (spec §4.2) — a
non-negative integer day count from the spreadsheet epoch. -/
def parseSerialDate (q : Rat) : Option Int :=
  if q.den = 1 ∧ 0 ≤ q.num then some (excelEpoch + q.num) else none

/-- Modelled from the spec: the Row Normalizer's date parsing (spec §4.2)
— accept ISO text dates, locale text dates disambiguated by validity, and
spreadsheet serial-date numbers; every other value is unparseable. -/
def parseDate : CellValue → Option Int
  | CellValue.str s =>
    match parseIsoDate s.data with
    | some d => some d
    | none => parseLocaleDate s.data
  | CellValue.num q => parseSerialDate q
  | CellValue.blank => none

def stripSeparators (cs : List Char) : List Char :=
  cs.filter (fun c => c ≠ ',' && c ≠ ' ')

def parseDecimalNonneg (cs : List Char) : Option Rat :=
  match splitOnChar '.' cs with
  | [ip] => (digitsToNat ip).map (fun n => (n : Rat))
  | [ip, fp] =>
    match digitsToNat ip, digitsToNat fp with
    | some n, some f =>
      some ((n : Rat) + (f : Rat) / ((10 : Rat) ^ fp.length))
    | _, _ => none
  | _ => none

def parseDecimalChars : List Char → Option Rat
  | '-' :: rest => (parseDecimalNonneg rest).map (fun q => -q)
  | cs => parseDecimalNonneg cs

/-- Modelled from the spec: numeric parsing (spec §4.2) — plain numbers
and numeric strings with thousands separators; blank or null is absent
(not zero), keeping "no data" distinct from "confirmed zero". -/
def parseNumber : CellValue → Option Rat
  | CellValue.num q => some q
  | CellValue.str s => parseDecimalChars (stripSeparators s.data)
  | CellValue.blank => none

/-- Quantities are integers (spec §3); fractional values truncate. -/
def parseQuantity (v : CellValue) : Option Int :=
  (parseNumber v).map Rat.floor

/-- Mapping from canonical field to matched original header, absent for
"not found" (spec §3, `ColumnMap`). -/
structure ColumnMap where
  so_date : Option String
  so_total_cbm : Option String
  so_unit_cbm : Option String
  so_qty : Option String
  si_date : Option String
  si_total_cbm : Option String
  si_unit_cbm : Option String
  si_qty : Option String
deriving DecidableEq, Repr

/-- Modelled from the spec: one side of the Row Normalizer (spec §4.2) —
a side is emitted exactly when its own date column is mapped and its
value parses; CBM and quantity cells are read from that side's own
columns only. -/
def normalizeSide (src : Source) (raw : RawRecord)
    (dateCol totalCol unitCol qtyCol : Option String) :
    Option NormalizedRecord :=
  match dateCol with
  | none => none
  | some c =>
    match parseDate (getCell raw c) with
    | none => none
    | some d =>
      some { source := src, date := d
             total_cbm := totalCol.bind (fun tc => parseNumber (getCell raw tc))
             unit_cbm := unitCol.bind (fun uc => parseNumber (getCell raw uc))
             quantity := qtyCol.bind (fun qc => parseQuantity (getCell raw qc)) }

def soSide (raw : RawRecord) (cm : ColumnMap) : Option NormalizedRecord :=
  normalizeSide Source.SO raw cm.so_date cm.so_total_cbm cm.so_unit_cbm cm.so_qty

def siSide (raw : RawRecord) (cm : ColumnMap) : Option NormalizedRecord :=
  normalizeSide Source.SI raw cm.si_date cm.si_total_cbm cm.si_unit_cbm cm.si_qty

/-- Modelled from the spec: the Row Normalizer (spec §4.2) — up to two
`NormalizedRecord` values per raw row, one per source side, each side
evaluated independently against its own date/CBM/quantity columns. -/
def normalize (raw : RawRecord) (cm : ColumnMap) : List NormalizedRecord :=
  (soSide raw cm).toList ++ (siSide raw cm).toList

/-- Normalization of a whole sheet: each raw row contributes its 0, 1 or
2 normalized records; a dropped row never aborts the rest. -/
def normalizeAll : List RawRecord → ColumnMap → List NormalizedRecord
  | [], _ => []
  | raw :: rest, cm => normalize raw cm ++ normalizeAll rest cm

theorem normalizeSide_source (src : Source) (raw : RawRecord)
    (dc tc uc qc : Option String) (r : NormalizedRecord)
    (h : normalizeSide src raw dc tc uc qc = some r) : r.source = src := by
  cases dc with
  | none => simp [normalizeSide] at h
  | some c =>
    simp only [normalizeSide] at h
    cases hp : parseDate (getCell raw c) with
    | none => rw [hp] at h; simp at h
    | some d =>
      rw [hp] at h
      simp only [Option.some.injEq] at h
      subst h
      rfl

theorem normalizeSide_eq_none (src : Source) (raw : RawRecord)
    (dc tc uc qc : Option String)
    (h : ∀ c, dc = some c → parseDate (getCell raw c) = none) :
    normalizeSide src raw dc tc uc qc = none := by
  cases dc with
  | none => rfl
  | some c => simp [normalizeSide, h c rfl]

theorem mkBucket_outbound_filter (records : List NormalizedRecord)
    (dateFrom dateTo : Int) (groupBy : Option (Int → Int)) (k : Int) :
    (mkBucket groupBy (qualifyingRecords records dateFrom dateTo) k).outbound_cbm =
      sumCbm (((records.filter isSI).filter (qualifies dateFrom dateTo)).filter
        (fun r => bucketKey groupBy r.date == k)) ∧
    (mkBucket groupBy (qualifyingRecords records dateFrom dateTo) k).outbound_qty =
      sumQty (((records.filter isSI).filter (qualifies dateFrom dateTo)).filter
        (fun r => bucketKey groupBy r.date == k)) := by
  have hlist : ((qualifyingRecords records dateFrom dateTo).filter
      (fun r => bucketKey groupBy r.date == k)).filter isSI =
      ((records.filter isSI).filter (qualifies dateFrom dateTo)).filter
        (fun r => bucketKey groupBy r.date == k) := by
    simp only [qualifyingRecords, List.filter_filter]
    apply List.filter_congr
    intro r _
    cases hsi : isSI r <;> cases hq : qualifies dateFrom dateTo r <;>
      cases hk : (bucketKey groupBy r.date == k) <;> simp [hsi, hq, hk]
  constructor
  · show sumCbm (((qualifyingRecords records dateFrom dateTo).filter
      (fun r => bucketKey groupBy r.date == k)).filter isSI) = _
    rw [hlist]
  · show sumQty (((qualifyingRecords records dateFrom dateTo).filter
      (fun r => bucketKey groupBy r.date == k)).filter isSI) = _
    rw [hlist]

/-- Claim C3: the outbound figures of every bucket are computed
exclusively from SI-sourced records — the sums range over the SI-filtered
record list, so no SO-sourced record contributes; and a raw row whose SI
date parses while its SO date is unparseable normalizes to SI-side
records only, the normalizer evaluating the two sides independently. -/
theorem outbound_exclusively_si (records : List NormalizedRecord)
    (dateFrom dateTo : Int) (groupBy : Option (Int → Int)) (b : DailyBucket)
    (hb : b ∈ (aggregate records dateFrom dateTo groupBy).daily)
    (raw : RawRecord) (cm : ColumnMap)
    (hso : ∀ c, cm.so_date = some c → parseDate (getCell raw c) = none) :
    (b.outbound_cbm = sumCbm (((records.filter isSI).filter
        (qualifies dateFrom dateTo)).filter
        (fun r => bucketKey groupBy r.date == b.date)) ∧
      b.outbound_qty = sumQty (((records.filter isSI).filter
        (qualifies dateFrom dateTo)).filter
        (fun r => bucketKey groupBy r.date == b.date))) ∧
    normalize raw cm = (siSide raw cm).toList ∧
    ∀ r ∈ normalize raw cm, r.source = Source.SI := by
  have hnorm : normalize raw cm = (siSide raw cm).toList := by
    rw [normalize, soSide, normalizeSide_eq_none Source.SO raw _ _ _ _ hso]
    rfl
  refine ⟨?_, hnorm, ?_⟩
  · simp only [aggregate, aggregateDaily, List.mem_map] at hb
    obtain ⟨k, -, rfl⟩ := hb
    rw [mkBucket_date]
    exact mkBucket_outbound_filter records dateFrom dateTo groupBy k
  · intro r hr
    rw [hnorm] at hr
    cases hsi : siSide raw cm with
    | none => rw [hsi] at hr; simp at hr
    | some r' =>
      rw [hsi] at hr
      simp only [Option.toList_some, List.mem_singleton] at hr
      subst hr
      exact normalizeSide_source Source.SI raw _ _ _ _ r hsi

/-- Witness for `outbound_exclusively_si`: both hypotheses discharged at
a concrete bucket of a one-record dataset and at a concrete wide-format
raw row whose SO date cell is the unparseable text `bad-date`; the
SI-only normalization component is exhibited. -/
theorem outbound_exclusively_si_witness :
    normalize
        [("SO Date", CellValue.str "bad-date"),
         ("SI Date", CellValue.str "2025-09-15")]
        ⟨some "SO Date", none, none, none, some "SI Date", none, none, none⟩ =
      (siSide
        [("SO Date", CellValue.str "bad-date"),
         ("SI Date", CellValue.str "2025-09-15")]
        ⟨some "SO Date", none, none, none, some "SI Date", none, none, none⟩).toList :=
  (outbound_exclusively_si [⟨Source.SI, 7, some 1, none, none⟩] 0 10 none
    (mkBucket none [⟨Source.SI, 7, some 1, none, none⟩] 7)
    (List.mem_singleton.mpr rfl)
    [("SO Date", CellValue.str "bad-date"),
     ("SI Date", CellValue.str "2025-09-15")]
    ⟨some "SO Date", none, none, none, some "SI Date", none, none, none⟩
    (fun c hc => by injection hc with h; subst h; decide)).2.1

/-- Claim C7: a raw row whose date value parses under none of the rules
(ISO text, locale text, serial number) — on either side — is silently
dropped from both CBM and quantity aggregation, and the drop never aborts
the request: normalization of the remaining rows and the subsequent
aggregation proceed unchanged. -/
theorem unparseable_row_dropped (raw : RawRecord) (cm : ColumnMap)
    (rest : List RawRecord) (dateFrom dateTo : Int)
    (groupBy : Option (Int → Int))
    (hso : ∀ c, cm.so_date = some c → parseDate (getCell raw c) = none)
    (hsi : ∀ c, cm.si_date = some c → parseDate (getCell raw c) = none) :
    normalize raw cm = [] ∧
    normalizeAll (raw :: rest) cm = normalizeAll rest cm ∧
    aggregate (normalizeAll (raw :: rest) cm) dateFrom dateTo groupBy =
      aggregate (normalizeAll rest cm) dateFrom dateTo groupBy := by
  have h1 : soSide raw cm = none :=
    normalizeSide_eq_none Source.SO raw _ _ _ _ hso
  have h2 : siSide raw cm = none :=
    normalizeSide_eq_none Source.SI raw _ _ _ _ hsi
  have hn : normalize raw cm = [] := by
    rw [normalize, h1, h2]
    rfl
  have hall : normalizeAll (raw :: rest) cm = normalizeAll rest cm := by
    show normalize raw cm ++ normalizeAll rest cm = normalizeAll rest cm
    rw [hn]
    rfl
  exact ⟨hn, hall, by rw [hall]⟩

/-- Witness for `unparseable_row_dropped`: both date cells of the raw row
are unparseable (`13/45/2025` is invalid under both locale readings, the
SI cell is blank); the remaining row still normalizes and aggregates
unchanged. -/
theorem unparseable_row_dropped_witness :
    normalize
        [("SO Date", CellValue.str "13/45/2025"), ("SI Date", CellValue.blank)]
        ⟨some "SO Date", none, none, none, some "SI Date", none, none, none⟩ = [] ∧
    normalizeAll
        [[("SO Date", CellValue.str "13/45/2025"), ("SI Date", CellValue.blank)],
         [("SO Date", CellValue.str "2025-09-15")]]
        ⟨some "SO Date", none, none, none, some "SI Date", none, none, none⟩ =
      normalizeAll [[("SO Date", CellValue.str "2025-09-15")]]
        ⟨some "SO Date", none, none, none, some "SI Date", none, none, none⟩ ∧
    aggregate (normalizeAll
        [[("SO Date", CellValue.str "13/45/2025"), ("SI Date", CellValue.blank)],
         [("SO Date", CellValue.str "2025-09-15")]]
        ⟨some "SO Date", none, none, none, some "SI Date", none, none, none⟩)
        20000 21000 none =
      aggregate (normalizeAll [[("SO Date", CellValue.str "2025-09-15")]]
        ⟨some "SO Date", none, none, none, some "SI Date", none, none, none⟩)
        20000 21000 none :=
  unparseable_row_dropped
    [("SO Date", CellValue.str "13/45/2025"), ("SI Date", CellValue.blank)]
    ⟨some "SO Date", none, none, none, some "SI Date", none, none, none⟩
    [[("SO Date", CellValue.str "2025-09-15")]] 20000 21000 none
    (fun c hc => by injection hc with h; subst h; decide)
    (fun c hc => by injection hc with h; subst h; decide)

/-- The canonical semantic fields of the Column Resolver (spec §2/§3). -/
inductive Field where
  | so_date | so_total_cbm | so_unit_cbm | so_qty
  | si_date | si_total_cbm | si_unit_cbm | si_qty
deriving DecidableEq, Repr

/-- Header normalization (spec §4.1): lowercase, strip punctuation,
collapse whitespace — realized as the list of lowercased alphanumeric
tokens. -/
def tokenizeAux : List Char → List Char → List (List Char)
  | cur, [] => if cur = [] then [] else [cur.reverse]
  | cur, c :: cs =>
    if c.isAlphanum then tokenizeAux (c.toLower :: cur) cs
    else if cur = [] then tokenizeAux [] cs
    else cur.reverse :: tokenizeAux [] cs

def tokens (s : String) : List (List Char) :=
  tokenizeAux [] s.data

def exactScore : Nat := 200

def matchThreshold : Nat := 60

/-- Token-overlap similarity of two strings, in percent. -/
def fuzzyScore (a b : String) : Nat :=
  let ta := tokens a
  let tb := tokens b
  let inter := (ta.filter (fun t => t ∈ tb)).length
  let union := ta.length + (tb.filter (fun t => t ∉ ta)).length
  if union = 0 then 0 else inter * 100 / union

/-- Modelled from the spec: score of one header against one synonym
(spec §4.1; `parser.py` is not in the source tree) — an exact normalized
match gets the maximum tier, a fuzzy match a token-overlap similarity
capped strictly below the exact tier, so exact always outranks fuzzy. -/
def scoreAgainst (syn header : String) : Nat :=
  if tokens syn = tokens header then exactScore
  else min (fuzzyScore syn header) 100

/-- Modelled from the spec: the ordered synonym patterns per canonical
field (spec §4.1/§9), exact name first; the table mirrors the headers the
frontend documents ("SO Date / Sales Order Date", "SI Total CBM / Sales
Invoice Total CBM", "Per Unit CBM", ...). -/
def synonyms : Field → List String
  | Field.so_date => ["SO Date", "Sales Order Date"]
  | Field.so_total_cbm => ["SO Total CBM", "Sales Order Total CBM"]
  | Field.so_unit_cbm => ["SO Unit CBM", "SO Per Unit CBM", "Sales Order Unit CBM"]
  | Field.so_qty => ["SO Quantity", "SO Qty", "Sales Order Quantity"]
  | Field.si_date => ["SI Date", "Sales Invoice Date"]
  | Field.si_total_cbm => ["SI Total CBM", "Sales Invoice Total CBM"]
  | Field.si_unit_cbm => ["SI Unit CBM", "SI Per Unit CBM", "Sales Invoice Unit CBM"]
  | Field.si_qty => ["SI Quantity", "SI Qty", "Sales Invoice Quantity"]

/-- The exact canonical name of a field: its first synonym. -/
def exactName (f : Field) : String := (synonyms f).headD ""

/-- Best score of a header over all synonyms of a field. -/
def scoreField (f : Field) (header : String) : Nat :=
  ((synonyms f).map (fun syn => scoreAgainst syn header)).foldl max 0

/-- One step of best-candidate selection: a candidate below the
acceptance threshold is ignored; otherwise it replaces the current best
only on a strictly larger score, so the leftmost header wins ties. -/
def better : Option (String × Nat) → String × Nat → Option (String × Nat)
  | none, cand => if cand.2 < matchThreshold then none else some cand
  | some q, cand =>
    if cand.2 < matchThreshold then some q
    else if q.2 < cand.2 then some cand else some q

/-- Modelled from the spec: the Column Resolver (`resolve`, `parser.py`
is not in the source tree).  Spec §4.1: a pure total function of the
headers; per field, the best-scoring header above the acceptance
threshold, exact normalized matches outranking fuzzy ones, the leftmost
header winning ties; a field clearing no header is absent from the map
rather than an error. -/
def resolve (headers : List String) (f : Field) : Option (String × Nat) :=
  (headers.map (fun h => (h, scoreField f h))).foldl better none

theorem scoreAgainst_le (syn header : String) :
    scoreAgainst syn header ≤ exactScore := by
  rw [scoreAgainst]
  by_cases h : tokens syn = tokens header
  · simp [h]
  · simp only [h, if_false]
    calc min (fuzzyScore syn header) 100 ≤ 100 := min_le_right _ _
    _ ≤ exactScore := by rw [exactScore]; omega

theorem scoreAgainst_eq_exact (syn header : String)
    (h : scoreAgainst syn header = exactScore) :
    tokens syn = tokens header := by
  by_contra hne
  rw [scoreAgainst, if_neg hne] at h
  have := min_le_right (fuzzyScore syn header) 100
  rw [h, exactScore] at this
  omega

theorem foldl_max_le (l : List Nat) :
    ∀ init bound : Nat, init ≤ bound → (∀ x ∈ l, x ≤ bound) →
      l.foldl max init ≤ bound := by
  induction l with
  | nil => intro init bound h _; simpa using h
  | cons a l ih =>
    intro init bound h hl
    rw [List.foldl_cons]
    exact ih _ _ (max_le h (hl a (List.mem_cons_self a l)))
      (fun x hx => hl x (List.mem_cons_of_mem a hx))

theorem le_foldl_max (l : List Nat) :
    ∀ init x : Nat, x = init ∨ x ∈ l → x ≤ l.foldl max init := by
  induction l with
  | nil =>
    intro init x h
    rcases h with rfl | h
    · exact le_refl _
    · simp at h
  | cons a l ih =>
    intro init x h
    rw [List.foldl_cons]
    rcases h with rfl | h
    · exact le_trans (le_max_left _ _) (ih (max x a) (max x a) (Or.inl rfl))
    · rcases List.mem_cons.mp h with rfl | h
      · exact le_trans (le_max_right _ _) (ih _ _ (Or.inl rfl))
      · exact ih _ _ (Or.inr h)

theorem foldl_max_attained (l : List Nat) :
    ∀ init : Nat, l.foldl max init = init ∨ l.foldl max init ∈ l := by
  induction l with
  | nil => intro init; exact Or.inl rfl
  | cons a l ih =>
    intro init
    rw [List.foldl_cons]
    rcases ih (max init a) with h | h
    · rcases max_cases init a with ⟨he, -⟩ | ⟨he, -⟩
      · exact Or.inl (by rw [h, he])
      · exact Or.inr (by rw [h, he]; exact List.mem_cons_self _ _)
    · exact Or.inr (List.mem_cons_of_mem _ h)

theorem exactName_mem (f : Field) : exactName f ∈ synonyms f := by
  cases f <;> exact List.mem_cons_self _ _

theorem scoreField_le (f : Field) (header : String) :
    scoreField f header ≤ exactScore := by
  apply foldl_max_le
  · exact Nat.zero_le _
  · intro x hx
    obtain ⟨syn, -, rfl⟩ := List.mem_map.mp hx
    exact scoreAgainst_le syn header

theorem scoreField_exact (f : Field) (header : String)
    (h : tokens header = tokens (exactName f)) :
    scoreField f header = exactScore := by
  apply le_antisymm (scoreField_le f header)
  apply le_foldl_max
  right
  refine List.mem_map.mpr ⟨exactName f, exactName_mem f, ?_⟩
  rw [scoreAgainst, if_pos h.symm]

theorem scoreField_exact_attained (f : Field) (header : String)
    (h : scoreField f header = exactScore) :
    ∃ syn ∈ synonyms f, tokens syn = tokens header := by
  rcases foldl_max_attained ((synonyms f).map
      (fun syn => scoreAgainst syn header)) 0 with ha | ha
  · rw [scoreField] at h
    rw [h] at ha
    rw [exactScore] at ha
    omega
  · rw [scoreField] at h
    rw [h] at ha
    obtain ⟨syn, hmem, hs⟩ := List.mem_map.mp ha
    exact ⟨syn, hmem, scoreAgainst_eq_exact syn header hs⟩

theorem better_fold_go (l : List (String × Nat)) :
    ∀ acc : Option (String × Nat),
      (∀ x ∈ l, x.2 ≤ exactScore) →
      (acc = none ∨ ∃ q, acc = some q ∧ q.2 ≤ exactScore) →
      ((∃ q, acc = some q ∧ q.2 = exactScore) ∨ ∃ x ∈ l, x.2 = exactScore) →
      ∃ m, l.foldl better acc = some (m, exactScore) ∧
        (acc = some (m, exactScore) ∨ (m, exactScore) ∈ l) := by
  induction l with
  | nil =>
    intro acc _ _ hex
    rcases hex with ⟨q, rfl, hq⟩ | hex
    · obtain ⟨s, n⟩ := q
      have hq' : n = exactScore := hq
      subst hq'
      exact ⟨s, rfl, Or.inl rfl⟩
    · simp at hex
  | cons a l ih =>
    intro acc hle hinv hex
    rw [List.foldl_cons]
    have hale : a.2 ≤ exactScore := hle a (List.mem_cons_self a l)
    have hle' : ∀ x ∈ l, x.2 ≤ exactScore :=
      fun x hx => hle x (List.mem_cons_of_mem a hx)
    have hinv' : better acc a = none ∨
        ∃ q, better acc a = some q ∧ q.2 ≤ exactScore := by
      rcases hinv with rfl | ⟨q, rfl, hq⟩
      · rw [better]
        by_cases hth : a.2 < matchThreshold
        · rw [if_pos hth]
          exact Or.inl rfl
        · rw [if_neg hth]
          exact Or.inr ⟨a, rfl, hale⟩
      · rw [better]
        by_cases hth : a.2 < matchThreshold
        · rw [if_pos hth]
          exact Or.inr ⟨q, rfl, hq⟩
        · rw [if_neg hth]
          by_cases hlt : q.2 < a.2
          · rw [if_pos hlt]
            exact Or.inr ⟨a, rfl, hale⟩
          · rw [if_neg hlt]
            exact Or.inr ⟨q, rfl, hq⟩
    rcases hex with ⟨q, rfl, hq⟩ | hex
    · have hkeep : better (some q) a = some q := by
        rw [better]
        by_cases hth : a.2 < matchThreshold
        · rw [if_pos hth]
        · rw [if_neg hth]
          have hnlt : ¬ q.2 < a.2 := by
            rw [hq]
            exact not_lt.mpr hale
          rw [if_neg hnlt]
      rw [hkeep]
      obtain ⟨m, hm, hcase⟩ := ih (some q) hle' (Or.inr ⟨q, rfl, le_of_eq hq⟩)
        (Or.inl ⟨q, rfl, hq⟩)
      refine ⟨m, hm, ?_⟩
      rcases hcase with hc | hc
      · exact Or.inl hc
      · exact Or.inr (List.mem_cons_of_mem a hc)
    · rcases hex with ⟨x, hx, hxs⟩
      rcases List.mem_cons.mp hx with rfl | hxl
      · have hth : ¬ x.2 < matchThreshold := by
          rw [hxs, exactScore, matchThreshold]
          omega
        have hstep : ∃ q, better acc x = some q ∧ q.2 = exactScore ∧
            (acc = some q ∨ q = x) := by
          rcases hinv with rfl | ⟨q', rfl, hq'⟩
          · rw [better, if_neg hth]
            exact ⟨x, rfl, hxs, Or.inr rfl⟩
          · rw [better, if_neg hth]
            by_cases hlt : q'.2 < x.2
            · rw [if_pos hlt]
              exact ⟨x, rfl, hxs, Or.inr rfl⟩
            · rw [if_neg hlt]
              refine ⟨q', rfl, le_antisymm hq' ?_, Or.inl rfl⟩
              rw [← hxs]
              exact not_lt.mp hlt
        obtain ⟨q, hq, hqs, hqor⟩ := hstep
        rw [hq]
        obtain ⟨m, hm, hcase⟩ := ih (some q) hle'
          (Or.inr ⟨q, rfl, le_of_eq hqs⟩) (Or.inl ⟨q, rfl, hqs⟩)
        refine ⟨m, hm, ?_⟩
        rcases hcase with hc | hc
        · injection hc with hc
          rcases hqor with hacc | rfl
          · exact Or.inl (by rw [hacc, hc])
          · refine Or.inr ?_
            rw [← hc]
            exact List.mem_cons_self _ _
        · exact Or.inr (List.mem_cons_of_mem _ hc)
      · obtain ⟨m, hm, hcase⟩ := ih (better acc a) hle' hinv'
          (Or.inr ⟨x, hxl, hxs⟩)
        refine ⟨m, hm, ?_⟩
        rcases hcase with hc | hc
        · rcases hinv with rfl | ⟨q', rfl, -⟩
          · rw [better] at hc
            by_cases hth : a.2 < matchThreshold
            · rw [if_pos hth] at hc
              exact absurd hc (by simp)
            · rw [if_neg hth] at hc
              injection hc with hc
              refine Or.inr ?_
              rw [← hc]
              exact List.mem_cons_self _ _
          · rw [better] at hc
            by_cases hth : a.2 < matchThreshold
            · rw [if_pos hth] at hc
              exact Or.inl hc
            · rw [if_neg hth] at hc
              by_cases hlt : q'.2 < a.2
              · rw [if_pos hlt] at hc
                injection hc with hc
                refine Or.inr ?_
                rw [← hc]
                exact List.mem_cons_self _ _
              · rw [if_neg hlt] at hc
                exact Or.inl hc
        · exact Or.inr (List.mem_cons_of_mem _ hc)

theorem better_fold_none (l : List (String × Nat)) :
    (∀ x ∈ l, x.2 < matchThreshold) → l.foldl better none = none := by
  induction l with
  | nil => intro _; rfl
  | cons a l ih =>
    intro hl
    rw [List.foldl_cons]
    have hstep : better none a = none := by
      rw [better, if_pos (hl a (List.mem_cons_self a l))]
    rw [hstep]
    exact ih (fun x hx => hl x (List.mem_cons_of_mem a hx))

/-- Claim C8: `resolve` is a pure total function of the header sequence
that never throws; for every header set in which a canonical field's
exact name appears verbatim, the field is mapped at the maximum
(exact-match) tier to a header that is an exact normalized match for the
field, regardless of the ordering of the other headers; and a field for
which no header clears the acceptance threshold is recorded as not found
in the column map rather than raising an error. -/
theorem resolve_exact_and_threshold (headers : List String) (f : Field) :
    (∀ h ∈ headers, h = exactName f →
      ∃ m ∈ headers, resolve headers f = some (m, exactScore) ∧
        scoreField f m = exactScore ∧
        ∃ syn ∈ synonyms f, tokens syn = tokens m) ∧
    ((∀ h ∈ headers, scoreField f h < matchThreshold) →
      resolve headers f = none) := by
  constructor
  · intro h hmem hname
    have hsf : scoreField f h = exactScore :=
      scoreField_exact f h (by rw [hname])
    have hle : ∀ x ∈ headers.map (fun h => (h, scoreField f h)),
        x.2 ≤ exactScore := by
      intro x hx
      obtain ⟨h', -, rfl⟩ := List.mem_map.mp hx
      exact scoreField_le f h'
    have hex : ∃ x ∈ headers.map (fun h => (h, scoreField f h)),
        x.2 = exactScore :=
      ⟨(h, scoreField f h), List.mem_map.mpr ⟨h, hmem, rfl⟩, hsf⟩
    obtain ⟨m, hm, hcase⟩ := better_fold_go _ none hle (Or.inl rfl)
      (Or.inr hex)
    rcases hcase with hc | hc
    · exact absurd hc (by simp)
    · obtain ⟨h', hh', hph⟩ := List.mem_map.mp hc
      have hm1 : h' = m := congrArg Prod.fst hph
      have hm2 : scoreField f h' = exactScore := congrArg Prod.snd hph
      subst hm1
      exact ⟨h', hh', hm, hm2, scoreField_exact_attained f h' hm2⟩
  · intro hall
    apply better_fold_none
    intro x hx
    obtain ⟨h', hh', rfl⟩ := List.mem_map.mp hx
    exact hall h' hh'

/-- Witness for `resolve_exact_and_threshold`: with headers
`["Product", "SO Date"]` the field `so_date`'s exact name appears
verbatim, and the membership and name hypotheses are discharged by
computation. -/
theorem resolve_exact_and_threshold_witness :
    ∃ m ∈ ["Product", "SO Date"],
      resolve ["Product", "SO Date"] Field.so_date = some (m, exactScore) ∧
      scoreField Field.so_date m = exactScore ∧
      ∃ syn ∈ synonyms Field.so_date, tokens syn = tokens m :=
  (resolve_exact_and_threshold ["Product", "SO Date"] Field.so_date).1
    "SO Date" (by decide) rfl

/-- A file as seen by the upload handler: name and byte size. -/
structure DroppedFile where
  name : String
  size : Nat
deriving DecidableEq, Repr

/-- JavaScript `String.prototype.endsWith`, embedded over the character
list: the last characters of the string equal the suffix. -/
def strEndsWith (s post : String) : Bool :=
  s.data.reverse.take post.data.length == post.data.reverse

/-- Outcome of the `onDrop` handler of `FileUpload.js`: silent return (no
file), a client-side validation error without any request, or an HTTP
POST to an endpoint. -/
inductive UploadAction where
  | idle
  | validationError (message : String)
  | post (endpoint : String)
deriving DecidableEq, Repr

/-- The `onDrop` callback of `frontend/src/components/FileUpload.js`
(lines 8–36): take the first accepted file; return silently when there is
none; when the name does not end in `.xlsx`, set the validation error and
return before any request; otherwise issue `POST /api/upload` with the
file — the file's size is never inspected. -/
def onDrop (acceptedFiles : List DroppedFile) : UploadAction :=
  match acceptedFiles.head? with
  | none => UploadAction.idle
  | some file =>
    if !(strEndsWith file.name ".xlsx") then
      UploadAction.validationError "Please upload an Excel (.xlsx) file"
    else
      UploadAction.post "/api/upload"

/-- The hint text rendered under the drop zone (`FileUpload.js`,
lines 96–98). -/
def uploadHintText : String := "Supports .xlsx files up to 20MB"

/-- Claim C9: a file of the wrong type is rejected at the boundary and
the core is never invoked — for every dropped file whose name does not
end in `.xlsx`, `onDrop` sets the validation error and returns without
issuing the `POST /api/upload` request, so no parsing or aggregation runs
for that file. -/
theorem onDrop_rejects_non_xlsx (file : DroppedFile)
    (rest : List DroppedFile) (h : strEndsWith file.name ".xlsx" = false) :
    onDrop (file :: rest) =
      UploadAction.validationError "Please upload an Excel (.xlsx) file" ∧
    ∀ endpoint, onDrop (file :: rest) ≠ UploadAction.post endpoint := by
  have hd : onDrop (file :: rest) =
      UploadAction.validationError "Please upload an Excel (.xlsx) file" := by
    simp [onDrop, h]
  refine ⟨hd, fun endpoint => ?_⟩
  rw [hd]
  simp

/-- Witness for `onDrop_rejects_non_xlsx`: the suffix hypothesis
discharged for the dropped file `data.csv`. -/
theorem onDrop_rejects_non_xlsx_witness :
    onDrop [⟨"data.csv", 100⟩] =
      UploadAction.validationError "Please upload an Excel (.xlsx) file" ∧
    ∀ endpoint, onDrop [⟨"data.csv", 100⟩] ≠ UploadAction.post endpoint :=
  onDrop_rejects_non_xlsx ⟨"data.csv", 100⟩ [] (by decide)

/-- Claim C10: the upload handler applies no client-side file-size check
— for every dropped file whose name ends in `.xlsx`, `onDrop` issues
`POST /api/upload` regardless of the file's byte size, even though the
drop zone displays "Supports .xlsx files up to 20MB"; any size ceiling is
enforced only server-side. -/
theorem onDrop_no_size_check (name : String) (size : Nat)
    (rest : List DroppedFile) (h : strEndsWith name ".xlsx" = true) :
    onDrop (⟨name, size⟩ :: rest) = UploadAction.post "/api/upload" ∧
    (∀ size' : Nat,
      onDrop (⟨name, size'⟩ :: rest) = onDrop (⟨name, size⟩ :: rest)) ∧
    uploadHintText = "Supports .xlsx files up to 20MB" :=
  ⟨by simp [onDrop, h], fun size' => by simp [onDrop, h], rfl⟩

/-- Witness for `onDrop_no_size_check`: the suffix hypothesis discharged
for a 999999999-byte `report.xlsx`, far above the displayed 20MB hint. -/
theorem onDrop_no_size_check_witness :
    onDrop [⟨"report.xlsx", 999999999⟩] = UploadAction.post "/api/upload" ∧
    (∀ size' : Nat,
      onDrop [⟨"report.xlsx", size'⟩] = onDrop [⟨"report.xlsx", 999999999⟩]) ∧
    uploadHintText = "Supports .xlsx files up to 20MB" :=
  onDrop_no_size_check "report.xlsx" 999999999 [] (by decide)

end Cbm
